import Mathlib

/-!
Verification of the span-decoding pipeline of src/server/main.py.

The neural model and the tokenizer are external oracles: the decode loop of
decode_chunk consumes, per token, the character offset pair offs[i], the
resolved label string LABELS[lab_id] and the chosen probability p.  We embed
that interface as a list of Tok values, and pass the tokenizer itself as an
oracle function (List Char → List Tok), so theorems quantify over every
possible oracle behaviour.  Text is embedded as List Char with Python slice
semantics; probabilities and thresholds as rationals.
-/

namespace Privately

/-- Python slice text[s:e] for non-negative bounds: drop s, take (e - s).
Nat subtraction and take/drop clamp exactly like Python slicing does. -/
def pySlice (t : List Char) (s e : Nat) : List Char :=
  (t.drop s).take (e - s)

/-- One token as seen by the decode loop of decode_chunk (main.py lines 75 to
78): character offsets s and e from offs[i], the resolved label string
LABELS[lab_id] and the chosen (argmax) probability p. -/
structure Tok where
  s : Nat
  e : Nat
  lab : String
  p : ℚ
deriving Repr, DecidableEq

/-- A span while being built (the cur and spans dictionaries of decode_chunk
before the text field is attached).  The source field named end is called
stop here because end is a Lean keyword. -/
structure RawSpan where
  start : Nat
  stop : Nat
  label : String
  score : ℚ
deriving Repr, DecidableEq

/-- A finished span: start, end (called stop), label, score, text
(main.py lines 99 and 107 to 108, and the Span response model). -/
structure Span where
  start : Nat
  stop : Nat
  label : String
  score : ℚ
  text : List Char
deriving Repr, DecidableEq

/-- Python lab.split("-", 1)[1]: everything after the first dash, or none
when the label has no dash. -/
def afterFirstDash : List Char → Option (List Char)
  | [] => none
  | c :: cs => if c = '-' then some cs else afterFirstDash cs

/-- main.py line 87: typ = lab.split("-", 1)[1] if "-" in lab else lab. -/
def entityType (lab : String) : String :=
  match afterFirstDash lab.data with
  | some rest => String.mk rest
  | none => lab

/-- main.py line 95: lab.startswith("B-"). -/
def hasBPrefix (lab : String) : Bool :=
  match lab.data with
  | 'B' :: '-' :: _ => true
  | _ => false

/-- Python dict.get(k, d) over an association list; the first binding of a
key wins, so overriding entries are placed in front. -/
def dictGet (m : List (String × ℚ)) (k : String) (d : ℚ) : ℚ :=
  match m with
  | [] => d
  | (k2, v) :: rest => if k = k2 then v else dictGet rest k d

/-- The loop body of decode_chunk (main.py lines 75 to 102), one token at a
time over the state (spans, cur).  Option.toList turns the Python idiom
"if cur: spans.append(cur)" into an append of zero or one element. -/
def decodeStep (thr : ℚ) (perType : List (String × ℚ))
    (st : List RawSpan × Option RawSpan) (t : Tok) :
    List RawSpan × Option RawSpan :=
  if (t.s = 0 ∧ t.e = 0) ∨ t.e ≤ t.s then st
  else if t.lab = "O" then (st.1 ++ st.2.toList, none)
  else
    let typ := entityType t.lab
    let thr2 := dictGet perType typ thr
    if t.p < thr2 then (st.1 ++ st.2.toList, none)
    else
      match st.2 with
      | none => (st.1, some ⟨t.s, t.e, typ, t.p⟩)
      | some c =>
        if typ ≠ c.label ∨ hasBPrefix t.lab = true then
          (st.1 ++ [c], some ⟨t.s, t.e, typ, t.p⟩)
        else
          (st.1, some ⟨c.start, max c.stop t.e, c.label, max c.score t.p⟩)

/-- The full token loop of decode_chunk, from the empty initial state. -/
def decodeRaw (thr : ℚ) (perType : List (String × ℚ)) (toks : List Tok) :
    List RawSpan × Option RawSpan :=
  toks.foldl (decodeStep thr perType) ([], none)

/-- decode_chunk (main.py lines 47 to 109) with the tokenizer and model calls
replaced by the token list they produce for this window: run the loop, flush
the still open span (lines 104 to 105), then attach
text = window_text[start:end] (lines 107 to 108). -/
def decode_chunk (text : List Char) (thr : ℚ) (perType : List (String × ℚ))
    (toks : List Tok) : List Span :=
  let st := decodeRaw thr perType toks
  (st.1 ++ st.2.toList).map
    (fun r => ⟨r.start, r.stop, r.label, r.score, pySlice text r.start r.stop⟩)

/-- main.py lines 113 to 116: per_type starts as the dict with NAME mapped to
threshold and ADDR mapped to max(threshold, 0.70); caller overrides are
applied on top, which for lookup-first association lists means they are
placed in front.  A missing per_label_threshold is the empty list. -/
def effectivePerType (threshold : ℚ) (perLabel : List (String × ℚ)) :
    List (String × ℚ) :=
  perLabel ++ [("NAME", threshold), ("ADDR", max threshold (mkRat 7 10))]

/-- main.py line 135: step = max(CHUNK - stride_chars, 1), with CHUNK = 2000.
stride_chars is an arbitrary (possibly negative) integer; the result is at
least 1, so the Int.toNat cast is faithful. -/
def windowStep (strideChars : Int) : Nat :=
  (max (2000 - strideChars) 1).toNat

/-- The chunking while-loop of main.py lines 127 to 136, abstracted over the
per-window work spansAt: visit i, advance by step, stop when i >= n.  The
guard 0 < step makes the recursion well founded; detect only calls it with
windowStep, which is always positive (with step = 0 the Python loop would
not terminate, an unreachable configuration). -/
def chunkLoop (spansAt : Nat → List Span) (n step : Nat) (i : Nat) :
    List Span :=
  if _h : i < n ∧ 0 < step then
    spansAt i ++ chunkLoop spansAt n step (i + step)
  else []
termination_by n - i
decreasing_by omega

/-- The window start offsets the chunking loop visits, in order. -/
def windowStarts (n step : Nat) (i : Nat) : List Nat :=
  if _h : i < n ∧ 0 < step then i :: windowStarts n step (i + step)
  else []
termination_by n - i
decreasing_by omega

/-- main.py lines 130 to 133: shift a window-local span by the window start i
and recompute its text against the full original text. -/
def shiftSpan (text : List Char) (i : Nat) (s : Span) : Span :=
  ⟨s.start + i, s.stop + i, s.label, s.score,
    pySlice text (s.start + i) (s.stop + i)⟩

/-- Lexicographic key of main.py line 139: sort by (start, end). -/
def spanLeP (a b : Span) : Prop :=
  a.start < b.start ∨ (a.start = b.start ∧ a.stop ≤ b.stop)

instance : DecidablePred fun p : Span × Span => spanLeP p.1 p.2 := by
  intro p; unfold spanLeP; infer_instance

instance spanLePDecidable (a b : Span) : Decidable (spanLeP a b) := by
  unfold spanLeP; infer_instance

/-- Boolean comparator for the stable sort of main.py line 139. -/
def spanLe (a b : Span) : Bool := decide (spanLeP a b)

/-- spans_all.sort(key=(start, end)) of main.py line 139: a stable sort, like
the Python list sort. -/
def sortSpans (l : List Span) : List Span := l.mergeSort spanLe

/-- The then-branch of the merge walk (main.py lines 147 to 149): widen the
last accepted span m with s, keep the max score, recompute the text. -/
def mergedSpan (text : List Char) (m s : Span) : Span :=
  ⟨m.start, max m.stop s.stop, m.label, max m.score s.score,
    pySlice text m.start (max m.stop s.stop)⟩

/-- One iteration of the merge walk (main.py lines 141 to 151), with the
accumulator kept in reverse order so its head is merged[-1]. -/
def mergeStep (text : List Char) (acc : List Span) (s : Span) : List Span :=
  match acc with
  | [] => [s]
  | m :: rest =>
    if s.label = m.label ∧ s.start ≤ m.stop then mergedSpan text m s :: rest
    else s :: m :: rest

/-- The span merger of main.py lines 139 to 152: sort by (start, end), then
walk the list merging touching or overlapping same-label spans. -/
def mergeSpans (text : List Char) (l : List Span) : List Span :=
  ((sortSpans l).foldl (mergeStep text) []).reverse

/-- detect (main.py lines 111 to 152).  tokenizeOracle w is the token list
the tokenizer and model produce for window text w (truncation to max_len is
part of that oracle); countTokens w is len(tok(w)["input_ids"]).  The fast
path decodes the whole text in one window; the long path slides a 2000
character window by windowStep and merges the shifted spans. -/
def detect (tokenizeOracle : List Char → List Tok)
    (countTokens : List Char → Nat) (text : List Char) (threshold : ℚ)
    (per_label_threshold : List (String × ℚ)) (max_len : Int)
    (stride_chars : Int) : List Span :=
  let per_type := effectivePerType threshold per_label_threshold
  if (countTokens text : Int) ≤ max_len then
    decode_chunk text threshold per_type (tokenizeOracle text)
  else
    mergeSpans text
      (chunkLoop
        (fun i =>
          (decode_chunk (pySlice text i (i + 2000)) threshold per_type
            (tokenizeOracle (pySlice text i (i + 2000)))).map
            (shiftSpan text i))
        text.length (windowStep stride_chars) 0)

/-- The id2label value found in config.json at startup (main.py lines 25 to
31): a dict with string-of-integer keys, a list, or anything else
(including absent). -/
inductive Id2Label where
  | dictMap : List (Nat × String) → Id2Label
  | listArr : List String → Id2Label
  | absent : Id2Label
deriving Repr, DecidableEq

/-- Python dict lookup by integer key (after the str(i) conversion). -/
def lookupNat : List (Nat × String) → Nat → Option String
  | [], _ => none
  | (k, v) :: rest, i => if i = k then some v else lookupNat rest i

/-- main.py lines 25 to 31: build LABELS from id2label.  A dict is read as
[id2label[str(i)] for i in range(len(id2label))], where a missing key is a
KeyError that aborts startup (modelled as none); a list is taken as is;
anything else falls back to the demo vocabulary. -/
def labelsFromConfig : Id2Label → Option (List String)
  | Id2Label.dictMap m => (List.range m.length).mapM (fun i => lookupNat m i)
  | Id2Label.listArr l => some l
  | Id2Label.absent => some ["O", "B-NAME", "I-NAME", "B-ADDR", "I-ADDR"]

/-- The DetectReq request model (main.py lines 160 to 167), with the typed
fields pydantic accepts.  max_len and stride_chars are plain ints with no
value constraint. -/
structure DetectReq where
  text : List Char
  threshold : ℚ
  per_label_threshold : Option (List (String × ℚ))
  max_len : Int
  stride_chars : Int
deriving Repr, DecidableEq

/-- The value validation pydantic performs on DetectReq: threshold carries
Field(0.65, ge=0.0, le=0.99); no other field has a value constraint. -/
def validReq (r : DetectReq) : Bool :=
  decide (0 ≤ r.threshold) && decide (r.threshold ≤ mkRat 99 100)

/-- Modelled from the spec: the second server variant (CPU/GPU selecting,
label set PER, ADDR, ORG) described in section 9 of the spec is not present
under src/; only the CPU variant src/server/main.py is.  Following the spec
text of section 4.4, its per-entity-type floor map keeps the caller default
for PER, max(threshold, 0.70) for the address-like type and
max(threshold, 0.75) for the organization-like type, with caller overrides
applied on top exactly as in effectivePerType. -/
def per_type_gpu (threshold : ℚ) (perLabel : List (String × ℚ)) :
    List (String × ℚ) :=
  perLabel ++ [("PER", threshold), ("ADDR", max threshold (mkRat 7 10)),
    ("ORG", max threshold (mkRat 3 4))]

/-- The per-label separation the spec claims for the merged output: if two
neighbouring spans share a label, the earlier one ends strictly before the
later one starts. -/
def sepRel (a b : Span) : Prop := a.label = b.label → a.stop < b.start

instance (a b : Span) : Decidable (sepRel a b) := by
  unfold sepRel; infer_instance

/-- A concrete tokenizer-and-model oracle used to evaluate the pipeline on a
closed input: two adjacent tokens both tagged B-NAME at probability 1. -/
def tokFast : List Char → List Tok := fun _ =>
  [⟨0, 4, "B-NAME", 1⟩, ⟨4, 8, "B-NAME", 1⟩]

/-- The same two-token oracle, but only on windows long enough to contain
both tokens, so its offsets always lie inside the window. -/
def tokBounded : List Char → List Tok := fun w =>
  if 8 ≤ w.length then [⟨0, 4, "B-NAME", 1⟩, ⟨4, 8, "B-NAME", 1⟩] else []

/-- A token-count oracle small enough to select the fast path. -/
def cntSmall : List Char → Nat := fun _ => 2

/-- A token-count oracle large enough to force the chunked path. -/
def cntBig : List Char → Nat := fun _ => 1000

/-- A concrete eight-character input text. -/
def textCE : List Char := "JohnPaul".toList

/-- A concrete oracle whose window predictions interleave entity types: a
NAME token, then an overlapping ADDR token, then another NAME token inside
the first one. -/
def tokChunk : List Char → List Tok := fun _ =>
  [⟨0, 10, "B-NAME", 1⟩, ⟨5, 20, "B-ADDR", 1⟩, ⟨8, 15, "B-NAME", 1⟩]

/-- A concrete twenty-character input text. -/
def textChunkCE : List Char := "abcdefghijklmnopqrst".toList

/-- The three spans detect returns for tokChunk on textChunkCE. -/
def spanCE1 : Span := ⟨0, 10, "NAME", 1, "abcdefghij".toList⟩

/-- Second span of the tokChunk run. -/
def spanCE2 : Span := ⟨5, 20, "ADDR", 1, "fghijklmnopqrst".toList⟩

/-- Third span of the tokChunk run: same label as the first, overlapping
it, but separated from it in the list by the ADDR span. -/
def spanCE3 : Span := ⟨8, 15, "NAME", 1, "ijklmno".toList⟩

end Privately

namespace Privately

/-! ## Basic facts about the embedded primitives -/

theorem pySlice_length (t : List Char) (s e : Nat) :
    (pySlice t s e).length = min (e - s) (t.length - s) := by
  simp [pySlice]

theorem spanLeP_trans {a b c : Span} (h1 : spanLeP a b) (h2 : spanLeP b c) :
    spanLeP a c := by
  unfold spanLeP at *
  omega

theorem spanLe_eq_true_iff (a b : Span) : spanLe a b = true ↔ spanLeP a b := by
  simp [spanLe]

theorem spanLe_trans (a b c : Span) (h1 : spanLe a b = true)
    (h2 : spanLe b c = true) : spanLe a c = true := by
  rw [spanLe_eq_true_iff] at *
  exact spanLeP_trans h1 h2

theorem spanLe_total (a b : Span) : (spanLe a b || spanLe b a) = true := by
  simp only [spanLe, Bool.or_eq_true, decide_eq_true_eq]
  unfold spanLeP
  omega

theorem mem_sortSpans (l : List Span) (a : Span) :
    a ∈ sortSpans l ↔ a ∈ l :=
  (List.mergeSort_perm l spanLe).mem_iff

/-! ## Invariant preservation through the window decoder -/

theorem decodeStep_inv (thr : ℚ) (perType : List (String × ℚ))
    (P : RawSpan → Prop) (t : Tok) (st : List RawSpan × Option RawSpan)
    (hopen : ¬((t.s = 0 ∧ t.e = 0) ∨ t.e ≤ t.s) → t.lab ≠ "O" →
      dictGet perType (entityType t.lab) thr ≤ t.p →
      P ⟨t.s, t.e, entityType t.lab, t.p⟩)
    (hext : ∀ c : RawSpan, P c → ¬((t.s = 0 ∧ t.e = 0) ∨ t.e ≤ t.s) →
      t.lab ≠ "O" → dictGet perType (entityType t.lab) thr ≤ t.p →
      P ⟨c.start, max c.stop t.e, c.label, max c.score t.p⟩)
    (h1 : ∀ r ∈ st.1, P r) (h2 : ∀ c, st.2 = some c → P c) :
    (∀ r ∈ (decodeStep thr perType st t).1, P r) ∧
    (∀ c, (decodeStep thr perType st t).2 = some c → P c) := by
  obtain ⟨spans, cur⟩ := st
  by_cases hval : (t.s = 0 ∧ t.e = 0) ∨ t.e ≤ t.s
  · simp only [decodeStep, if_pos hval]
    exact ⟨h1, h2⟩
  · by_cases hO : t.lab = "O"
    · simp only [decodeStep, if_neg hval, if_pos hO]
      refine ⟨?_, by simp⟩
      intro r hr
      rcases List.mem_append.mp hr with h | h
      · exact h1 r h
      · cases cur with
        | none => simp at h
        | some c =>
          simp only [Option.toList_some, List.mem_singleton] at h
          exact h ▸ h2 c rfl
    · by_cases hp : t.p < dictGet perType (entityType t.lab) thr
      · simp only [decodeStep, if_neg hval, if_neg hO, if_pos hp]
        refine ⟨?_, by simp⟩
        intro r hr
        rcases List.mem_append.mp hr with h | h
        · exact h1 r h
        · cases cur with
          | none => simp at h
          | some c =>
            simp only [Option.toList_some, List.mem_singleton] at h
            exact h ▸ h2 c rfl
      · have hple : dictGet perType (entityType t.lab) thr ≤ t.p :=
          not_lt.mp hp
        cases cur with
        | none =>
          simp only [decodeStep, if_neg hval, if_neg hO, if_neg hp]
          refine ⟨h1, ?_⟩
          intro c hc
          injection hc with hc
          exact hc ▸ hopen hval hO hple
        | some c =>
          by_cases hnew : entityType t.lab ≠ c.label ∨ hasBPrefix t.lab = true
          · simp only [decodeStep, if_neg hval, if_neg hO, if_neg hp,
              if_pos hnew]
            constructor
            · intro r hr
              rcases List.mem_append.mp hr with h | h
              · exact h1 r h
              · rw [List.mem_singleton] at h
                exact h ▸ h2 c rfl
            · intro c2 hc2
              injection hc2 with hc2
              exact hc2 ▸ hopen hval hO hple
          · simp only [decodeStep, if_neg hval, if_neg hO, if_neg hp,
              if_neg hnew]
            refine ⟨h1, ?_⟩
            intro c2 hc2
            injection hc2 with hc2
            exact hc2 ▸ hext c (h2 c rfl) hval hO hple

theorem foldl_decodeStep_inv (thr : ℚ) (perType : List (String × ℚ))
    (P : RawSpan → Prop) :
    ∀ (toks : List Tok) (st : List RawSpan × Option RawSpan),
      (∀ t ∈ toks, ¬((t.s = 0 ∧ t.e = 0) ∨ t.e ≤ t.s) → t.lab ≠ "O" →
        dictGet perType (entityType t.lab) thr ≤ t.p →
        P ⟨t.s, t.e, entityType t.lab, t.p⟩) →
      (∀ t ∈ toks, ∀ c : RawSpan, P c → ¬((t.s = 0 ∧ t.e = 0) ∨ t.e ≤ t.s) →
        t.lab ≠ "O" → dictGet perType (entityType t.lab) thr ≤ t.p →
        P ⟨c.start, max c.stop t.e, c.label, max c.score t.p⟩) →
      (∀ r ∈ st.1, P r) → (∀ c, st.2 = some c → P c) →
      (∀ r ∈ (toks.foldl (decodeStep thr perType) st).1, P r) ∧
      (∀ c, (toks.foldl (decodeStep thr perType) st).2 = some c → P c) := by
  intro toks
  induction toks with
  | nil => intro st _ _ h1 h2; exact ⟨h1, h2⟩
  | cons t rest ih =>
    intro st hopen hext h1 h2
    simp only [List.foldl_cons]
    have hstep := decodeStep_inv thr perType P t st
      (hopen t (List.mem_cons_self t rest))
      (hext t (List.mem_cons_self t rest)) h1 h2
    exact ih (decodeStep thr perType st t)
      (fun u hu => hopen u (List.mem_cons_of_mem t hu))
      (fun u hu => hext u (List.mem_cons_of_mem t hu)) hstep.1 hstep.2

theorem decode_chunk_inv (text : List Char) (thr : ℚ)
    (perType : List (String × ℚ)) (toks : List Tok) (P : RawSpan → Prop)
    (Q : Span → Prop)
    (hopen : ∀ t ∈ toks, ¬((t.s = 0 ∧ t.e = 0) ∨ t.e ≤ t.s) → t.lab ≠ "O" →
      dictGet perType (entityType t.lab) thr ≤ t.p →
      P ⟨t.s, t.e, entityType t.lab, t.p⟩)
    (hext : ∀ t ∈ toks, ∀ c : RawSpan, P c →
      ¬((t.s = 0 ∧ t.e = 0) ∨ t.e ≤ t.s) → t.lab ≠ "O" →
      dictGet perType (entityType t.lab) thr ≤ t.p →
      P ⟨c.start, max c.stop t.e, c.label, max c.score t.p⟩)
    (hPQ : ∀ r : RawSpan, P r →
      Q ⟨r.start, r.stop, r.label, r.score, pySlice text r.start r.stop⟩) :
    ∀ s ∈ decode_chunk text thr perType toks, Q s := by
  intro s hs
  unfold decode_chunk at hs
  obtain ⟨r, hr, rfl⟩ := List.mem_map.mp hs
  have hinv := foldl_decodeStep_inv thr perType P toks ([], none) hopen hext
    (by simp) (by simp)
  rcases List.mem_append.mp hr with h | h
  · exact hPQ r (hinv.1 r h)
  · cases hst : (decodeRaw thr perType toks).2 with
    | none => rw [hst] at h; simp at h
    | some c =>
      rw [hst] at h
      simp only [Option.toList_some, List.mem_singleton] at h
      exact h ▸ hPQ c (hinv.2 c hst)

/-! ## Invariant preservation through the span merger -/

theorem foldl_mergeStep_inv (text : List Char) (Q : Span → Prop)
    (hm : ∀ m s : Span, Q m → Q s → Q (mergedSpan text m s)) :
    ∀ (l acc : List Span), (∀ x ∈ l, Q x) → (∀ x ∈ acc, Q x) →
      ∀ x ∈ l.foldl (mergeStep text) acc, Q x := by
  intro l
  induction l with
  | nil => intro acc _ hacc x hx; exact hacc x hx
  | cons s rest ih =>
    intro acc hl hacc
    simp only [List.foldl_cons]
    apply ih
    · intro x hx; exact hl x (List.mem_cons_of_mem s hx)
    · have hs : Q s := hl s (List.mem_cons_self s rest)
      cases acc with
      | nil =>
        intro x hx
        simp only [mergeStep, List.mem_singleton] at hx
        exact hx ▸ hs
      | cons m racc =>
        by_cases hc : s.label = m.label ∧ s.start ≤ m.stop
        · intro x hx
          simp only [mergeStep, if_pos hc, List.mem_cons] at hx
          rcases hx with hx | hx
          · exact hx ▸ hm m s (hacc m (List.mem_cons_self m racc)) hs
          · exact hacc x (List.mem_cons_of_mem m hx)
        · intro x hx
          simp only [mergeStep, if_neg hc, List.mem_cons] at hx
          rcases hx with hx | hx | hx
          · exact hx ▸ hs
          · exact hx ▸ hacc m (List.mem_cons_self m racc)
          · exact hacc x (List.mem_cons_of_mem m hx)

theorem mergeSpans_inv (text : List Char) (Q : Span → Prop)
    (hm : ∀ m s : Span, Q m → Q s → Q (mergedSpan text m s))
    (l : List Span) (hl : ∀ x ∈ l, Q x) :
    ∀ x ∈ mergeSpans text l, Q x := by
  intro x hx
  unfold mergeSpans at hx
  rw [List.mem_reverse] at hx
  exact foldl_mergeStep_inv text Q hm (sortSpans l) []
    (fun y hy => hl y ((mem_sortSpans l y).mp hy)) (by simp) x hx

/-! ## The chunking loop as a finite window list -/

theorem chunkLoop_eq_join (spansAt : Nat → List Span) (n step : Nat) :
    ∀ i, chunkLoop spansAt n step i =
      ((windowStarts n step i).map spansAt).flatten := by
  have H : ∀ k i, n - i ≤ k → chunkLoop spansAt n step i =
      ((windowStarts n step i).map spansAt).flatten := by
    intro k
    induction k with
    | zero =>
      intro i hk
      rw [chunkLoop, windowStarts]
      have hng : ¬(i < n ∧ 0 < step) := by omega
      rw [dif_neg hng, dif_neg hng]
      simp
    | succ k ih =>
      intro i hk
      rw [chunkLoop, windowStarts]
      by_cases h : i < n ∧ 0 < step
      · rw [dif_pos h, dif_pos h, List.map_cons, List.flatten_cons,
          ih (i + step) (by omega)]
      · rw [dif_neg h, dif_neg h]
        simp
  intro i
  exact H (n - i) i le_rfl

theorem windowStarts_mem (n step : Nat) :
    ∀ i j, j ∈ windowStarts n step i → i ≤ j ∧ j < n := by
  have H : ∀ k i j, n - i ≤ k → j ∈ windowStarts n step i →
      i ≤ j ∧ j < n := by
    intro k
    induction k with
    | zero =>
      intro i j hk hj
      rw [windowStarts] at hj
      have hng : ¬(i < n ∧ 0 < step) := by omega
      rw [dif_neg hng] at hj
      simp at hj
    | succ k ih =>
      intro i j hk hj
      rw [windowStarts] at hj
      by_cases h : i < n ∧ 0 < step
      · rw [dif_pos h] at hj
        rcases List.mem_cons.mp hj with rfl | hj
        · omega
        · have := ih (i + step) j (by omega) hj
          omega
      · rw [dif_neg h] at hj
        simp at hj
  intro i j
  exact H (n - i) i j le_rfl

theorem windowStarts_length (n step : Nat) :
    ∀ i, (windowStarts n step i).length ≤ n - i := by
  have H : ∀ k i, n - i ≤ k → (windowStarts n step i).length ≤ n - i := by
    intro k
    induction k with
    | zero =>
      intro i hk
      rw [windowStarts]
      have hng : ¬(i < n ∧ 0 < step) := by omega
      rw [dif_neg hng]
      simp
    | succ k ih =>
      intro i hk
      rw [windowStarts]
      by_cases h : i < n ∧ 0 < step
      · rw [dif_pos h]
        have := ih (i + step) (by omega)
        simp only [List.length_cons]
        omega
      · rw [dif_neg h]
        simp
  intro i
  exact H (n - i) i le_rfl

theorem mem_chunkLoop (spansAt : Nat → List Span) (n step : Nat) (x : Span)
    (hx : x ∈ chunkLoop spansAt n step 0) : ∃ j, j < n ∧ x ∈ spansAt j := by
  rw [chunkLoop_eq_join] at hx
  rw [List.mem_flatten] at hx
  obtain ⟨lx, hlx, hxl⟩ := hx
  rw [List.mem_map] at hlx
  obtain ⟨j, hj, rfl⟩ := hlx
  exact ⟨j, (windowStarts_mem n step 0 j hj).2, hxl⟩

/-! ## Whole-pipeline invariants of detect -/

theorem detect_text_inv (tokenizeOracle : List Char → List Tok)
    (countTokens : List Char → Nat) (text : List Char) (threshold : ℚ)
    (perLabel : List (String × ℚ)) (maxLen strideChars : Int) :
    ∀ s ∈ detect tokenizeOracle countTokens text threshold perLabel maxLen
      strideChars, s.text = pySlice text s.start s.stop := by
  intro s hs
  simp only [detect] at hs
  by_cases hfast : (countTokens text : Int) ≤ maxLen
  · rw [if_pos hfast] at hs
    exact decode_chunk_inv text threshold _ _ (fun _ => True)
      (fun x => x.text = pySlice text x.start x.stop)
      (by intro t _ _ _ _; trivial) (by intro t _ c _ _ _ _; trivial)
      (fun r _ => rfl) s hs
  · rw [if_neg hfast] at hs
    refine mergeSpans_inv text (fun x => x.text = pySlice text x.start x.stop)
      (fun m u _ _ => rfl) _ ?_ s hs
    intro x hx
    obtain ⟨j, _, hxj⟩ := mem_chunkLoop _ _ _ x hx
    obtain ⟨y, _, rfl⟩ := List.mem_map.mp hxj
    rfl

theorem detect_bounds (tokenizeOracle : List Char → List Tok)
    (countTokens : List Char → Nat) (text : List Char) (threshold : ℚ)
    (perLabel : List (String × ℚ)) (maxLen strideChars : Int)
    (htok : ∀ w : List Char, ∀ t ∈ tokenizeOracle w, t.e ≤ w.length) :
    ∀ s ∈ detect tokenizeOracle countTokens text threshold perLabel maxLen
      strideChars, s.start < s.stop ∧ s.stop ≤ text.length := by
  intro s hs
  simp only [detect] at hs
  by_cases hfast : (countTokens text : Int) ≤ maxLen
  · rw [if_pos hfast] at hs
    refine decode_chunk_inv text threshold _ _
      (fun r => r.start < r.stop ∧ r.stop ≤ text.length)
      (fun x => x.start < x.stop ∧ x.stop ≤ text.length)
      ?_ ?_ (fun r hr => hr) s hs
    · intro t ht hval _ _
      have := htok text t ht
      constructor
      · simp only [not_or, not_le] at hval
        exact hval.2
      · exact this
    · intro t ht c hc hval _ _
      have := htok text t ht
      constructor
      · exact lt_of_lt_of_le hc.1 (le_max_left c.stop t.e)
      · exact max_le hc.2 this
  · rw [if_neg hfast] at hs
    refine mergeSpans_inv text
      (fun x => x.start < x.stop ∧ x.stop ≤ text.length) ?_ _ ?_ s hs
    · intro m u hQm hQu
      unfold mergedSpan
      constructor
      · exact lt_of_lt_of_le hQm.1 (le_max_left m.stop u.stop)
      · exact max_le hQm.2 hQu.2
    · intro x hx
      obtain ⟨j, hj, hxj⟩ := mem_chunkLoop _ _ _ x hx
      obtain ⟨y, hy, rfl⟩ := List.mem_map.mp hxj
      have hw : (pySlice text j (j + 2000)).length ≤ text.length - j := by
        rw [pySlice_length]
        omega
      have hy2 := decode_chunk_inv (pySlice text j (j + 2000)) threshold _ _
        (fun r => r.start < r.stop ∧
          r.stop ≤ (pySlice text j (j + 2000)).length)
        (fun x => x.start < x.stop ∧
          x.stop ≤ (pySlice text j (j + 2000)).length)
        ?_ ?_ (fun r hr => hr) y hy
      · unfold shiftSpan
        dsimp only
        obtain ⟨h1, h2⟩ := hy2
        constructor
        · omega
        · omega
      · intro t ht hval _ _
        have := htok (pySlice text j (j + 2000)) t ht
        constructor
        · simp only [not_or, not_le] at hval
          exact hval.2
        · exact this
      · intro t ht c hc hval _ _
        have := htok (pySlice text j (j + 2000)) t ht
        constructor
        · exact lt_of_lt_of_le hc.1 (le_max_left c.stop t.e)
        · exact max_le hc.2 this

theorem detect_score_ge (tokenizeOracle : List Char → List Tok)
    (countTokens : List Char → Nat) (text : List Char) (threshold : ℚ)
    (perLabel : List (String × ℚ)) (maxLen strideChars : Int) :
    ∀ s ∈ detect tokenizeOracle countTokens text threshold perLabel maxLen
      strideChars,
      dictGet (effectivePerType threshold perLabel) s.label threshold ≤
        s.score := by
  intro s hs
  simp only [detect] at hs
  by_cases hfast : (countTokens text : Int) ≤ maxLen
  · rw [if_pos hfast] at hs
    refine decode_chunk_inv text threshold _ _
      (fun r => dictGet (effectivePerType threshold perLabel) r.label
        threshold ≤ r.score)
      (fun x => dictGet (effectivePerType threshold perLabel) x.label
        threshold ≤ x.score)
      ?_ ?_ (fun r hr => hr) s hs
    · intro t _ _ _ hge
      exact hge
    · intro t _ c hc _ _ _
      exact le_trans hc (le_max_left c.score t.p)
  · rw [if_neg hfast] at hs
    refine mergeSpans_inv text
      (fun x => dictGet (effectivePerType threshold perLabel) x.label
        threshold ≤ x.score) ?_ _ ?_ s hs
    · intro m u hQm _
      exact le_trans hQm (le_max_left m.score u.score)
    · intro x hx
      obtain ⟨j, _, hxj⟩ := mem_chunkLoop _ _ _ x hx
      obtain ⟨y, hy, rfl⟩ := List.mem_map.mp hxj
      have hy2 := decode_chunk_inv (pySlice text j (j + 2000)) threshold _ _
        (fun r => dictGet (effectivePerType threshold perLabel) r.label
          threshold ≤ r.score)
        (fun x => dictGet (effectivePerType threshold perLabel) x.label
          threshold ≤ x.score)
        (fun t _ _ _ hge => hge)
        (fun t _ c hc _ _ _ => le_trans hc (le_max_left c.score t.p))
        (fun r hr => hr) y hy
      exact hy2

/-! ## Separation and sortedness of the merged output -/

theorem foldl_mergeStep_chain (text : List Char) :
    ∀ (l acc : List Span), List.Chain' (fun x y => sepRel y x) acc →
      List.Chain' (fun x y => sepRel y x) (l.foldl (mergeStep text) acc) := by
  intro l
  induction l with
  | nil => intro acc h; exact h
  | cons s rest ih =>
    intro acc h
    simp only [List.foldl_cons]
    apply ih
    cases acc with
    | nil => simp [mergeStep]
    | cons m racc =>
      by_cases hc : s.label = m.label ∧ s.start ≤ m.stop
      · simp only [mergeStep, if_pos hc]
        cases racc with
        | nil => simp
        | cons r rr =>
          rw [List.chain'_cons] at h ⊢
          refine ⟨?_, h.2⟩
          intro hlabel
          exact h.1 hlabel
      · simp only [mergeStep, if_neg hc]
        rw [List.chain'_cons]
        refine ⟨?_, h⟩
        intro hlabel
        by_contra hge
        exact hc ⟨hlabel.symm, by omega⟩

theorem mergeSpans_chain (text : List Char) (l : List Span) :
    List.Chain' sepRel (mergeSpans text l) := by
  unfold mergeSpans
  rw [List.chain'_reverse]
  exact foldl_mergeStep_chain text (sortSpans l) [] (by simp)

theorem foldl_mergeStep_sorted (text : List Char) :
    ∀ (l acc : List Span), List.Pairwise spanLeP l →
      (∀ m ∈ acc, ∀ s ∈ l, spanLeP m s) →
      List.Pairwise (fun x y => spanLeP y x) acc →
      List.Pairwise (fun x y => spanLeP y x) (l.foldl (mergeStep text) acc) := by
  intro l
  induction l with
  | nil => intro acc _ _ hacc; exact hacc
  | cons s rest ih =>
    intro acc hl hcross hacc
    simp only [List.foldl_cons]
    have hl2 := List.pairwise_cons.mp hl
    cases acc with
    | nil =>
      refine ih _ hl2.2 ?_ ?_
      · intro m hm u hu
        simp only [mergeStep, List.mem_singleton] at hm
        exact hm ▸ hl2.1 u hu
      · simp [mergeStep]
    | cons m racc =>
      have hacc2 := List.pairwise_cons.mp hacc
      by_cases hc : s.label = m.label ∧ s.start ≤ m.stop
      · simp only [mergeStep, if_pos hc]
        refine ih _ hl2.2 ?_ ?_
        · intro x hx u hu
          rcases List.mem_cons.mp hx with rfl | hx
          · have hmu : spanLeP m u :=
              hcross m (List.mem_cons_self m racc) u (List.mem_cons_of_mem s hu)
            have hms : spanLeP m s :=
              hcross m (List.mem_cons_self m racc) s (List.mem_cons_self s rest)
            have hsu : spanLeP s u := hl2.1 u hu
            unfold mergedSpan spanLeP at *
            dsimp only
            omega
          · exact hcross x (List.mem_cons_of_mem m hx) u
              (List.mem_cons_of_mem s hu)
        · rw [List.pairwise_cons]
          refine ⟨?_, hacc2.2⟩
          intro y hy
          have hym := hacc2.1 y hy
          unfold mergedSpan spanLeP at *
          dsimp only
          omega
      · simp only [mergeStep, if_neg hc]
        refine ih _ hl2.2 ?_ ?_
        · intro x hx u hu
          rcases List.mem_cons.mp hx with rfl | hx
          · exact hl2.1 u hu
          · exact hcross x hx u (List.mem_cons_of_mem s hu)
        · rw [List.pairwise_cons]
          constructor
          · intro y hy
            rcases List.mem_cons.mp hy with rfl | hy
            · exact hcross y (List.mem_cons_self y racc) s
                (List.mem_cons_self s rest)
            · have h1 : spanLeP y m := hacc2.1 y hy
              have h2 : spanLeP m s :=
                hcross m (List.mem_cons_self m racc) s (List.mem_cons_self s rest)
              exact spanLeP_trans h1 h2
          · exact hacc

theorem sortSpans_pairwise (l : List Span) :
    List.Pairwise spanLeP (sortSpans l) := by
  have h := @List.sorted_mergeSort Span spanLe spanLe_trans spanLe_total l
  exact h.imp (fun hab => (spanLe_eq_true_iff _ _).mp hab)

theorem mergeSpans_sorted (text : List Char) (l : List Span) :
    List.Pairwise spanLeP (mergeSpans text l) := by
  unfold mergeSpans
  rw [List.pairwise_reverse]
  exact foldl_mergeStep_sorted text (sortSpans l) []
    (sortSpans_pairwise l) (by simp) (by simp)

/-! ## Idempotence of the merge step -/

theorem foldl_mergeStep_noMerge (text : List Char) :
    ∀ (l : List Span) (m : Span) (acc : List Span),
      List.Chain' sepRel (m :: l) →
      l.foldl (mergeStep text) (m :: acc) = l.reverse ++ m :: acc := by
  intro l
  induction l with
  | nil => intro m acc _; simp
  | cons s rest ih =>
    intro m acc h
    rw [List.chain'_cons] at h
    simp only [List.foldl_cons]
    have hc : ¬(s.label = m.label ∧ s.start ≤ m.stop) := by
      intro hcon
      have hlt := h.1 hcon.1.symm
      omega
    simp only [mergeStep, if_neg hc]
    rw [ih s (m :: acc) h.2]
    simp

theorem mergeSpans_fix (text : List Char) (l : List Span)
    (hsorted : List.Pairwise spanLeP l) (hchain : List.Chain' sepRel l) :
    mergeSpans text l = l := by
  unfold mergeSpans
  have hsort : sortSpans l = l := by
    unfold sortSpans
    exact List.mergeSort_of_sorted
      (hsorted.imp (fun hab => (spanLe_eq_true_iff _ _).mpr hab))
  rw [hsort]
  cases l with
  | nil => simp
  | cons m rest =>
    rw [List.foldl_cons]
    have hm : mergeStep text [] m = [m] := rfl
    rw [hm, foldl_mergeStep_noMerge text rest m [] hchain]
    simp

theorem mergeSpans_idem (text : List Char) (l : List Span) :
    mergeSpans text (mergeSpans text l) = mergeSpans text l :=
  mergeSpans_fix text _ (mergeSpans_sorted text l) (mergeSpans_chain text l)

/-- The tokBounded oracle respects the tokenizer contract: every token offset
lies inside the window it was produced for. -/
theorem tokBounded_le : ∀ w : List Char, ∀ t ∈ tokBounded w, t.e ≤ w.length := by
  intro w t ht
  unfold tokBounded at ht
  by_cases h : 8 ≤ w.length
  · rw [if_pos h] at ht
    rcases List.mem_cons.mp ht with rfl | ht
    · dsimp only
      omega
    · rcases List.mem_singleton.mp ht with rfl
      dsimp only
      omega
  · rw [if_neg h] at ht
    simp at ht

/-- The tokChunk request takes the chunked path (1000 tokens > 256) with one
window at offset 0 (the step 2000 - 512 = 1488 exceeds the 20-character
text), and the merge walk keeps all three spans: it compares each span only
against merged[-1], whose label differs each time, so the two overlapping
NAME spans survive with the ADDR span between them. -/
theorem detect_tokChunk_eq :
    detect tokChunk cntBig textChunkCE (mkRat 13 20) [] 256 512 =
      [spanCE1, spanCE2, spanCE3] := by
  simp only [detect]
  rw [if_neg (by decide)]
  rw [chunkLoop]
  rw [dif_pos (by decide)]
  rw [chunkLoop]
  rw [dif_neg (by decide)]
  simp only [List.append_nil]
  have hdec : (decode_chunk (pySlice textChunkCE 0 (0 + 2000)) (mkRat 13 20)
      (effectivePerType (mkRat 13 20) [])
      (tokChunk (pySlice textChunkCE 0 (0 + 2000)))).map
      (shiftSpan textChunkCE 0) = [spanCE1, spanCE2, spanCE3] := by decide
  rw [hdec]
  have hsort : sortSpans [spanCE1, spanCE2, spanCE3] =
      [spanCE1, spanCE2, spanCE3] := by
    unfold sortSpans
    exact List.mergeSort_of_sorted (by decide)
  unfold mergeSpans
  rw [hsort]
  decide

/-! ## Claims -/

/-- Claim C1, counterexample, both paths.  Fast single-window path: no
merging is performed, so two adjacent B-NAME tokens yield two same-label
spans with earlier.end = later.start — they touch.  Chunked-and-merged
path: the merge walk compares each span only against merged[-1], so two
overlapping NAME spans separated in sorted order by an ADDR span are both
returned — NAME(0,10) and NAME(8,15) overlap.  Each half refutes the
claimed strict separation of all pairs of distinct same-label spans taken
in (start, end) sorted order. -/
theorem C1_counterexample :
    (¬ (∀ a ∈ detect tokFast cntSmall textCE (mkRat 13 20) [] 256 512,
        ∀ b ∈ detect tokFast cntSmall textCE (mkRat 13 20) [] 256 512,
        a.label = b.label → spanLeP a b → a ≠ b → a.stop < b.start)) ∧
    (¬ (∀ a ∈ detect tokChunk cntBig textChunkCE (mkRat 13 20) [] 256 512,
        ∀ b ∈ detect tokChunk cntBig textChunkCE (mkRat 13 20) [] 256 512,
        a.label = b.label → spanLeP a b → a ≠ b → a.stop < b.start)) := by
  constructor
  · decide
  · rw [detect_tokChunk_eq]
    decide

/-- Claim C1 (amended): on the chunked-and-merged path the returned span list
is sorted by (start, end) and any two consecutive spans sharing a label
satisfy earlier.end < later.start (they neither overlap nor touch).  Both
weakenings are forced by the counterexample: the fast single-window path
performs no merging, so same-label spans may touch there, and on the
chunked path same-label spans separated in sorted order by a span of a
different label may still overlap, because the merge walk compares only
against the last accepted span. -/
theorem C1_merged_output_separated (tokenizeOracle : List Char → List Tok)
    (countTokens : List Char → Nat) (text : List Char) (threshold : ℚ)
    (perLabel : List (String × ℚ)) (maxLen strideChars : Int)
    (h : maxLen < (countTokens text : Int)) :
    List.Pairwise spanLeP
      (detect tokenizeOracle countTokens text threshold perLabel maxLen
        strideChars) ∧
    List.Chain' sepRel
      (detect tokenizeOracle countTokens text threshold perLabel maxLen
        strideChars) := by
  simp only [detect]
  rw [if_neg (not_le.mpr h)]
  exact ⟨mergeSpans_sorted _ _, mergeSpans_chain _ _⟩

/-- Witness for C1: a concrete request forced onto the chunked path. -/
theorem C1_witness :
    ((256 : Int) < (cntBig textCE : Int)) ∧
    (List.Pairwise spanLeP
      (detect tokFast cntBig textCE (mkRat 13 20) [] 256 512) ∧
     List.Chain' sepRel
      (detect tokFast cntBig textCE (mkRat 13 20) [] 256 512)) :=
  ⟨by decide, C1_merged_output_separated tokFast cntBig textCE (mkRat 13 20)
    [] 256 512 (by decide)⟩

/-- Claim C2, counterexample: with id2label absent the startup code does not
stop with an error — it proceeds with the guessed fallback label set
(main.py line 31). -/
theorem C2_counterexample :
    labelsFromConfig Id2Label.absent =
      some ["O", "B-NAME", "I-NAME", "B-ADDR", "I-ADDR"] := by
  decide

/-- Claim C2 (amended): when id2label is absent or neither a dict nor a list,
initialization proceeds with the default 2-entity demo label set instead of
refusing to start; only a dict id2label whose keys do not cover 0..len-1
stops initialization (key error). -/
theorem C2_fallback_labels :
    labelsFromConfig Id2Label.absent =
      some ["O", "B-NAME", "I-NAME", "B-ADDR", "I-ADDR"] ∧
    labelsFromConfig (Id2Label.dictMap [(1, "X")]) = none := by
  decide

/-- Claim C3, counterexample: a request with threshold 1 (inside the claimed
accepted range [0,1]) is rejected by validation, and a request with
max_tokens = -5 (which the claim says must be rejected) passes validation
untouched. -/
theorem C3_counterexample :
    validReq ⟨[], 1, none, 256, 512⟩ = false ∧
    validReq ⟨[], mkRat 13 20, none, -5, 512⟩ = true := by
  decide

/-- Claim C3 (amended): request validation accepts a request exactly when its
default threshold lies in [0, 0.99]; max_len and stride_chars carry no value
constraint (non-positive max_len passes validation), and the per-label
threshold map is only type-checked. -/
theorem C3_validation_iff (r : DetectReq) :
    validReq r = true ↔ (0 ≤ r.threshold ∧ r.threshold ≤ mkRat 99 100) := by
  simp [validReq]

/-- Claim C4: with no caller overrides the effective threshold for the
address-like type is max(default, 0.70) (hence at least 0.70) and, in the
spec-modelled second server variant, the organization-like type gets
max(default, 0.75) (hence at least 0.75); a caller override via
per_label_thresholds replaces the corresponding floor. -/
theorem C4_threshold_floors (threshold v : ℚ) :
    dictGet (effectivePerType threshold []) "ADDR" threshold =
      max threshold (mkRat 7 10) ∧
    mkRat 7 10 ≤ dictGet (effectivePerType threshold []) "ADDR" threshold ∧
    dictGet (per_type_gpu threshold []) "ORG" threshold =
      max threshold (mkRat 3 4) ∧
    mkRat 3 4 ≤ dictGet (per_type_gpu threshold []) "ORG" threshold ∧
    dictGet (effectivePerType threshold [("ADDR", v)]) "ADDR" threshold = v ∧
    dictGet (per_type_gpu threshold [("ORG", v)]) "ORG" threshold = v :=
  ⟨rfl, le_max_right _ _, rfl, le_max_right _ _, rfl, rfl⟩

/-- Claim C5: every span detect returns carries
text = original_input[start:end] computed against the full original text, on
the fast path, on the chunked path after shifting, and after every merge. -/
theorem C5_text_field (tokenizeOracle : List Char → List Tok)
    (countTokens : List Char → Nat) (text : List Char) (threshold : ℚ)
    (perLabel : List (String × ℚ)) (maxLen strideChars : Int) :
    ∀ s ∈ detect tokenizeOracle countTokens text threshold perLabel maxLen
      strideChars, s.text = pySlice text s.start s.stop :=
  detect_text_inv tokenizeOracle countTokens text threshold perLabel maxLen
    strideChars

/-- Witness for C5 at a concrete fast-path request. -/
theorem C5_witness :
    ((⟨0, 4, "NAME", 1, "John".toList⟩ : Span) ∈
      detect tokFast cntSmall textCE (mkRat 13 20) [] 256 512) ∧
    (⟨0, 4, "NAME", 1, "John".toList⟩ : Span).text = pySlice textCE 0 4 :=
  ⟨by decide, C5_text_field tokFast cntSmall textCE (mkRat 13 20) [] 256 512
    _ (by decide)⟩

/-- Claim C6: for a non-O token whose confidence meets its type threshold,
the window decoder starts a new span exactly when no span is open, or the
entity type differs from the open span, or the label carries a B- prefix
(emitting the open span first); otherwise it extends the open span with
end = max(current_end, token_end) and score = max(current_score,
token_confidence). -/
theorem C6_start_new_rule (thr : ℚ) (perType : List (String × ℚ))
    (spans : List RawSpan) (cur : Option RawSpan) (t : Tok)
    (hval : ¬((t.s = 0 ∧ t.e = 0) ∨ t.e ≤ t.s))
    (hO : t.lab ≠ "O")
    (hp : dictGet perType (entityType t.lab) thr ≤ t.p) :
    (cur = none →
      decodeStep thr perType (spans, cur) t =
        (spans, some ⟨t.s, t.e, entityType t.lab, t.p⟩)) ∧
    (∀ c : RawSpan, cur = some c →
      (entityType t.lab ≠ c.label ∨ hasBPrefix t.lab = true →
        decodeStep thr perType (spans, cur) t =
          (spans ++ [c], some ⟨t.s, t.e, entityType t.lab, t.p⟩)) ∧
      (entityType t.lab = c.label → hasBPrefix t.lab = false →
        decodeStep thr perType (spans, cur) t =
          (spans, some ⟨c.start, max c.stop t.e, c.label,
            max c.score t.p⟩))) := by
  have hnp : ¬ t.p < dictGet perType (entityType t.lab) thr := not_lt.mpr hp
  constructor
  · rintro rfl
    simp only [decodeStep, if_neg hval, if_neg hO, if_neg hnp]
  · rintro c rfl
    constructor
    · intro hnew
      simp only [decodeStep, if_neg hval, if_neg hO, if_neg hnp, if_pos hnew]
    · intro heq hB
      have hnotnew : ¬(entityType t.lab ≠ c.label ∨ hasBPrefix t.lab = true) := by
        simp [heq, hB]
      simp only [decodeStep, if_neg hval, if_neg hO, if_neg hnp,
        if_neg hnotnew]

/-- Witness for C6: a B-NAME token at probability 1 against threshold 0 and
no open span opens a fresh NAME span. -/
theorem C6_witness :
    dictGet [] (entityType "B-NAME") 0 ≤ (1 : ℚ) ∧
    decodeStep 0 [] ([], none) ⟨0, 4, "B-NAME", 1⟩ =
      ([], some ⟨0, 4, "NAME", 1⟩) :=
  ⟨by decide,
    (C6_start_new_rule 0 [] [] none ⟨0, 4, "B-NAME", 1⟩ (by decide)
      (by decide) (by decide)).1 rfl⟩

/-- Claim C7: the span-merge step is idempotent — applying the merge step to
a list that is already a merge output returns it unchanged. -/
theorem C7_merge_idempotent (text : List Char) (l : List Span) :
    mergeSpans text (mergeSpans text l) = mergeSpans text l :=
  mergeSpans_idem text l

/-- Claim C8: under the tokenizer contract that token offsets lie inside the
tokenized window, every returned span satisfies 0 <= start < end <= length
of the original text and its text is non-empty. -/
theorem C8_span_bounds (tokenizeOracle : List Char → List Tok)
    (countTokens : List Char → Nat) (text : List Char) (threshold : ℚ)
    (perLabel : List (String × ℚ)) (maxLen strideChars : Int)
    (htok : ∀ w : List Char, ∀ t ∈ tokenizeOracle w, t.e ≤ w.length) :
    ∀ s ∈ detect tokenizeOracle countTokens text threshold perLabel maxLen
      strideChars,
      s.start < s.stop ∧ s.stop ≤ text.length ∧ 0 < s.text.length := by
  intro s hs
  have hb := detect_bounds tokenizeOracle countTokens text threshold perLabel
    maxLen strideChars htok s hs
  have ht := detect_text_inv tokenizeOracle countTokens text threshold
    perLabel maxLen strideChars s hs
  refine ⟨hb.1, hb.2, ?_⟩
  rw [ht, pySlice_length]
  omega

/-- Witness for C8 with a bounds-respecting concrete oracle. -/
theorem C8_witness :
    ((⟨0, 4, "NAME", 1, "John".toList⟩ : Span) ∈
      detect tokBounded cntSmall textCE (mkRat 13 20) [] 256 512) ∧
    ((0 : Nat) < 4 ∧ (4 : Nat) ≤ textCE.length ∧
      (0 : Nat) < ("John".toList).length) :=
  ⟨by decide, C8_span_bounds tokBounded cntSmall textCE (mkRat 13 20) [] 256
    512 tokBounded_le ⟨0, 4, "NAME", 1, "John".toList⟩ (by decide)⟩

/-- Claim C9: for every stride_chars value the window step equals
max(CHUNK_CHARS - stride_chars, 1), hence is at least 1; the chunking loop
is exactly a pass over the finite window-start list (advancing by that step
while i < len(text)), whose length is at most len(text), so chunked decoding
terminates after finitely many windows. -/
theorem C9_chunk_termination (strideChars : Int) (spansAt : Nat → List Span)
    (n : Nat) :
    (windowStep strideChars : Int) = max (2000 - strideChars) 1 ∧
    1 ≤ windowStep strideChars ∧
    chunkLoop spansAt n (windowStep strideChars) 0 =
      ((windowStarts n (windowStep strideChars) 0).map spansAt).flatten ∧
    (windowStarts n (windowStep strideChars) 0).length ≤ n := by
  have h1 : 1 ≤ windowStep strideChars := by
    unfold windowStep
    omega
  refine ⟨?_, h1, chunkLoop_eq_join spansAt n (windowStep strideChars) 0, ?_⟩
  · unfold windowStep
    omega
  · have := windowStarts_length n (windowStep strideChars) 0
    omega

/-- Claim C10: every span detect returns has score at least the effective
threshold of its label — the per-type entry of the effective Threshold Map,
or the caller default for types absent from it. -/
theorem C10_score_meets_threshold (tokenizeOracle : List Char → List Tok)
    (countTokens : List Char → Nat) (text : List Char) (threshold : ℚ)
    (perLabel : List (String × ℚ)) (maxLen strideChars : Int) :
    ∀ s ∈ detect tokenizeOracle countTokens text threshold perLabel maxLen
      strideChars,
      dictGet (effectivePerType threshold perLabel) s.label threshold ≤
        s.score :=
  detect_score_ge tokenizeOracle countTokens text threshold perLabel maxLen
    strideChars

/-- Witness for C10 at a concrete fast-path request. -/
theorem C10_witness :
    ((⟨0, 4, "NAME", 1, "John".toList⟩ : Span) ∈
      detect tokFast cntSmall textCE (mkRat 13 20) [] 256 512) ∧
    dictGet (effectivePerType (mkRat 13 20) []) "NAME" (mkRat 13 20) ≤
      (1 : ℚ) :=
  ⟨by decide, C10_score_meets_threshold tokFast cntSmall textCE (mkRat 13 20)
    [] 256 512 ⟨0, 4, "NAME", 1, "John".toList⟩ (by decide)⟩

end Privately
